import Mathlib

/-!
Verification of the TSP solver (`tsp_solver.py`): a brute-force exact solver
over all permutations of the non-start locations, a nearest-neighbor greedy
approximation, and the reporting harness.

The distance matrix is embedded as `List (List ℚ)` (Python floats modelled as
rationals).  Python list indexing and `set.remove` can raise, so every
operation that can raise returns `Except PyErr`.  The wall-clock timeout check
`time.time() - start_time > timeout` is abstracted as a boolean oracle
`t : ℕ → Bool` indexed by `routes_checked`, the number of permutations already
examined: `t k = true` means the wall clock exceeded the budget when the k-th
candidate was about to be examined.  The run of the Python function with the
timeout never firing corresponds to the oracle `fun _ => false`.
-/

/-- A raised Python exception (`IndexError`, `KeyError`, `TypeError`, ...). -/
abbrev PyErr := Unit

/-- Indexing `distances[i][j]` on a list-of-lists matrix: raises when out of range. -/
def d2 (dm : List (List ℚ)) (i j : ℕ) : Except PyErr ℚ :=
  match dm.get? i with
  | none => .error ()
  | some row =>
    match row.get? j with
    | none => .error ()
    | some x => .ok x

/-- The summation loop `for i in range(len(route) - 1): distance +=
distances[route[i]][route[i+1]]`: total weight of consecutive edges of a
(closed or open) walk, raising on the first out-of-range lookup. -/
def routeCost (dm : List (List ℚ)) : List ℕ → Except PyErr ℚ
  | a :: b :: rest => do
    let x ← d2 dm a b
    let s ← routeCost dm (b :: rest)
    pure (x + s)
  | _ => pure 0

/-- All ways of selecting one element out of a list, each paired with the
remaining elements in their original order; the selections come in the order
of the selected element's position.  This is the branching structure of
`itertools.permutations`. -/
def selections {α : Type} : List α → List (α × List α)
  | [] => []
  | x :: xs => (x, xs) :: (selections xs).map (fun p => (p.1, x :: p.2))

/-- Permutation enumeration in the order of `itertools.permutations`, with a
fuel argument (the list length) making the recursion structural. -/
def permsAux {α : Type} : ℕ → List α → List (List α)
  | 0, _ => [[]]
  | fuel + 1, l => (selections l).flatMap (fun p => (permsAux fuel p.2).map (p.1 :: ·))

/-- Enumeration `itertools.permutations(l)`: all permutations of `l`, lexicographically by
position (the first element varies slowest). -/
def permsLex {α : Type} (l : List α) : List (List α) :=
  permsAux l.length l

/-- Outcome of `tsp_brute_force`: either the `return None, None` of the
timeout branch, or the final `return best_route, best_distance` where the best
pair is still `(None, inf)` when no candidate was examined. -/
inductive BFOut
  | timeout
  | done : Option (List ℕ × ℚ) → BFOut
deriving DecidableEq

/-- Cost of the candidate closed route `route = [start] + list(perm) + [start]`
built at line 47, with `start = 0`. -/
def permCost (dm : List (List ℚ)) (perm : List ℕ) : Except PyErr ℚ :=
  routeCost dm (0 :: (perm ++ [0]))

/-- The permutation loop of `tsp_brute_force` (lines 40-59): at each candidate
first poll the timeout oracle at the current `routes_checked` count `k`,
returning the bare timeout signal; otherwise cost the closed route
`[0] + perm + [0]` and keep it as best exactly when its distance is strictly
smaller (`<`) than the best so far (`float('inf')` when no best is recorded,
so a first computed candidate is always kept). -/
def bfLoop (dm : List (List ℚ)) (t : ℕ → Bool) :
    List (List ℕ) → ℕ → Option (List ℕ × ℚ) → Except PyErr BFOut
  | [], _, best => .ok (.done best)
  | perm :: rest, k, best =>
    if t k then .ok .timeout
    else
      match permCost dm perm with
      | .error e => .error e
      | .ok c =>
        let best' := match best with
          | none => some (0 :: perm, c)
          | some rc => if c < rc.2 then some (0 :: perm, c) else some rc
        bfLoop dm t rest (k + 1) best'

/-- The list `other_locations = [i for i in locations if i != start]` with
`locations = list(range(n))` and `start = 0`. -/
def otherLocations (dm : List (List ℚ)) : List ℕ :=
  (List.range dm.length).filter (fun i => i ≠ 0)

/-- Embedding of `tsp_brute_force(distances, timeout)` with the wall clock abstracted as
the oracle `t` (see module docstring). -/
def tsp_brute_force (dm : List (List ℚ)) (t : ℕ → Bool) : Except PyErr BFOut :=
  bfLoop dm t (permsLex (otherLocations dm)) 0 none

/-- Tail of Python `min(l, key=key)` once a current best and its key value are
in hand: a later element replaces the best only on a strictly smaller key. -/
def minByKeyAux (key : ℕ → Except PyErr ℚ) : ℕ → ℚ → List ℕ → Except PyErr ℕ
  | best, _, [] => .ok best
  | best, kbest, x :: rest => do
    let kx ← key x
    if kx < kbest then minByKeyAux key x kx rest
    else minByKeyAux key best kbest rest

/-- Python `min(iterable, key=key)`: `ValueError` on an empty iterable, first
minimum wins ties, and a raising key lookup propagates. -/
def minByKey (key : ℕ → Except PyErr ℚ) : List ℕ → Except PyErr ℕ
  | [] => .error ()
  | x :: rest => do
    let kx ← key x
    minByKeyAux key x kx rest

/-- The `while unvisited:` loop of `tsp_nearest_neighbor` (lines 89-100) plus
the closing `total_distance += distances[current][start]`.  The unvisited set
of small ints is kept as an ascending list (its CPython iteration order);
`unvisited.remove(nearest)` raises `KeyError` when the element is absent.  The
fuel argument is the size of the unvisited set, making the recursion
structural; `fuel = 0` with a nonempty set is unreachable. -/
def nnLoop (dm : List (List ℚ)) (start : ℕ) :
    ℕ → ℕ → List ℕ → List ℕ → ℚ → Except PyErr (List ℕ × ℚ)
  | _, current, [], route, total => do
    let c ← d2 dm current start
    pure (route, total + c)
  | 0, _, _ :: _, _, _ => .error ()
  | fuel + 1, current, u@(_ :: _), route, total => do
    let nearest ← minByKey (fun x => d2 dm current x) u
    if nearest ∈ u then
      let c ← d2 dm current nearest
      nnLoop dm start fuel nearest (u.erase nearest) (route ++ [nearest]) (total + c)
    else .error ()

/-- Embedding of `tsp_nearest_neighbor(distances, start)`: `unvisited = set(range(n))`,
`route = [start]`, `unvisited.remove(start)` (a `KeyError` when `start` is not
in range), then the greedy loop. -/
def tsp_nearest_neighbor (dm : List (List ℚ)) (start : ℕ) : Except PyErr (List ℕ × ℚ) :=
  let unvisited := List.range dm.length
  if start ∈ unvisited then
    nnLoop dm start (unvisited.erase start).length start (unvisited.erase start) [start] 0
  else .error ()

/-- The matrix `dm` is square, `n × n`. -/
def Square (dm : List (List ℚ)) (n : ℕ) : Prop :=
  dm.length = n ∧ ∀ row ∈ dm, row.length = n

instance : DecidablePred (fun dm => Square dm 2) := fun dm => by
  unfold Square; infer_instance

/-- A printed value in a harness report row. -/
inductive Disp
  | timeoutMark
  | distVal : ℚ → Disp
  | qualityVal : ℚ → Disp
deriving DecidableEq

/-- Formatting `x` with Python `:.2f`: formatting `None` raises `TypeError`; a number is printed
(the 2-decimal rounding is presentation and is not modelled). -/
def fmt2f : Option ℚ → Except PyErr Disp
  | none => .error ()
  | some v => .ok (.distVal v)

/-- One size's report in `test_small_cases` (lines 131-138), as a function of
the unpacked solver results `dist_bf` (`None` on timeout) and `dist_nn`: the
code formats `dist_bf` with `:.2f` and divides by it with no `None` check. -/
def test_small_cases_step (dist_bf : Option ℚ) (dist_nn : ℚ) : Except PyErr (List Disp) := do
  let a ← fmt2f dist_bf
  let q ← match dist_bf with
    | none => .error ()
    | some v => .ok (Disp.qualityVal (dist_nn / v * 100))
  pure [a, Disp.distVal dist_nn, q]

/-- One size's row in `time_brute_force` (lines 165-168): `if route is None`
print the TIMEOUT row, else print the distance. -/
def time_brute_force_row (res : Option (List ℕ × ℚ)) : Disp :=
  match res with
  | none => .timeoutMark
  | some rc => .distVal rc.2

/-- One size's row in `compare_all_approaches` (lines 218-222): on a timed-out
brute force print TIMEOUT and the approximation's distance only, otherwise
both distances and the quality percentage. -/
def compare_row (bf : Option (List ℕ × ℚ)) (dist_nn : ℚ) : List Disp :=
  match bf with
  | none => [.timeoutMark, .distVal dist_nn]
  | some rc => [.distVal rc.2, .distVal dist_nn, .qualityVal (dist_nn / rc.2 * 100)]

/-! ### Properties of the permutation enumeration -/

theorem selections_length {α : Type} :
    ∀ {l : List α} {p : α × List α}, p ∈ selections l → p.2.length + 1 = l.length := by
  intro l
  induction l with
  | nil => intro p h; simp [selections] at h
  | cons x xs ih =>
    intro p h
    simp only [selections, List.mem_cons, List.mem_map] at h
    rcases h with h | ⟨q, hq, rfl⟩
    · subst h; simp
    · have := ih hq
      simp only [List.length_cons]
      omega

theorem selections_perm {α : Type} :
    ∀ {l : List α} {p : α × List α}, p ∈ selections l → List.Perm (p.1 :: p.2) l := by
  intro l
  induction l with
  | nil => intro p h; simp [selections] at h
  | cons x xs ih =>
    intro p h
    simp only [selections, List.mem_cons, List.mem_map] at h
    rcases h with h | ⟨q, hq, rfl⟩
    · subst h; exact List.Perm.refl _
    · exact (List.Perm.swap x q.1 q.2).trans ((ih hq).cons x)

theorem selections_mem {α : Type} [DecidableEq α] :
    ∀ {l : List α} {a : α}, a ∈ l → (a, l.erase a) ∈ selections l := by
  intro l
  induction l with
  | nil => intro a h; simp at h
  | cons x xs ih =>
    intro a h
    by_cases hax : a = x
    · subst hax
      simp [selections, List.erase_cons_head]
    · have hmem : a ∈ xs := by
        rcases List.mem_cons.mp h with h' | h'
        · exact absurd h' hax
        · exact h'
      have herase : (x :: xs).erase a = x :: xs.erase a := by
        rw [List.erase_cons]
        simp [Ne.symm hax]
      rw [herase]
      simp only [selections, List.mem_cons, List.mem_map]
      exact Or.inr ⟨(a, xs.erase a), ih hmem, rfl⟩

theorem permsAux_perm {α : Type} :
    ∀ (fuel : ℕ) (l q : List α), l.length = fuel → q ∈ permsAux fuel l → List.Perm q l := by
  intro fuel
  induction fuel with
  | zero =>
    intro l q hlen hq
    simp only [permsAux, List.mem_singleton] at hq
    subst hq
    cases l with
    | nil => exact List.Perm.refl _
    | cons x xs => simp at hlen
  | succ fuel ih =>
    intro l q hlen hq
    simp only [permsAux, List.mem_flatMap, List.mem_map] at hq
    obtain ⟨p, hp, q', hq', rfl⟩ := hq
    have hplen : p.2.length = fuel := by
      have := selections_length hp
      omega
    exact ((ih p.2 q' hplen hq').cons p.1).trans (selections_perm hp)

theorem permsAux_mem {α : Type} [DecidableEq α] :
    ∀ (q l : List α), List.Perm q l → q ∈ permsAux l.length l := by
  intro q
  induction q with
  | nil =>
    intro l h
    have : l = [] := h.symm.eq_nil
    subst this
    simp [permsAux]
  | cons a q' ih =>
    intro l h
    have hmem : a ∈ l := h.subset (List.mem_cons_self a q')
    have hq' : List.Perm q' (l.erase a) := (List.cons_perm_iff_perm_erase.mp h).2
    have hlen : l.length = q'.length + 1 := by
      have := h.length_eq
      simp at this
      omega
    have hellen : (l.erase a).length = q'.length := by
      rw [List.length_erase_of_mem hmem, hlen]
      omega
    rw [hlen]
    simp only [permsAux, List.mem_flatMap, List.mem_map]
    refine ⟨(a, l.erase a), selections_mem hmem, q', ?_, rfl⟩
    have := ih (l.erase a) hq'
    rwa [hellen] at this

theorem permsLex_iff {α : Type} [DecidableEq α] {l q : List α} :
    q ∈ permsLex l ↔ List.Perm q l :=
  ⟨permsAux_perm l.length l q rfl, permsAux_mem q l⟩

/-! ### Totality of matrix lookups on square matrices -/

theorem d2_ok {dm : List (List ℚ)} {n i j : ℕ} (hsq : Square dm n)
    (hi : i < n) (hj : j < n) : ∃ x, d2 dm i j = .ok x := by
  obtain ⟨hlen, hrows⟩ := hsq
  have hi' : i < dm.length := by omega
  obtain ⟨row, hrow⟩ : ∃ row, dm.get? i = some row :=
    ⟨dm.get ⟨i, hi'⟩, List.get?_eq_get hi'⟩
  have hrmem : row ∈ dm := by
    exact List.get?_mem hrow
  have hj' : j < row.length := by rw [hrows row hrmem]; exact hj
  obtain ⟨x, hx⟩ : ∃ x, row.get? j = some x :=
    ⟨row.get ⟨j, hj'⟩, List.get?_eq_get hj'⟩
  refine ⟨x, ?_⟩
  have hrow' : dm[i]? = some row := by rwa [List.get?_eq_getElem?] at hrow
  have hx' : row[j]? = some x := by rwa [List.get?_eq_getElem?] at hx
  simp [d2, hrow', hx']

theorem routeCost_ok {dm : List (List ℚ)} {n : ℕ} (hsq : Square dm n) :
    ∀ (r : List ℕ), (∀ x ∈ r, x < n) → ∃ c, routeCost dm r = .ok c := by
  intro r
  induction r with
  | nil => intro _; exact ⟨0, rfl⟩
  | cons a tail ih =>
    intro hbound
    cases tail with
    | nil => exact ⟨0, rfl⟩
    | cons b rest =>
      obtain ⟨x, hx⟩ := d2_ok hsq (hbound a (by simp)) (hbound b (by simp))
      obtain ⟨s, hs⟩ := ih (fun y hy => hbound y (List.mem_cons_of_mem a hy))
      refine ⟨x + s, ?_⟩
      simp [routeCost, hx, hs]
      rfl

/-! ### The brute-force permutation loop -/

/-- A completed (`done`) run of the loop is independent of the timeout oracle
and of the `routes_checked` counter: completing means the oracle never fired,
so the run coincides with the run under the never-firing oracle. -/
theorem bfLoop_done_eq {dm : List (List ℚ)} {t : ℕ → Bool} :
    ∀ (perms : List (List ℕ)) (k k' : ℕ) (best : Option (List ℕ × ℚ)) (out : Option (List ℕ × ℚ)),
      bfLoop dm t perms k best = .ok (.done out) →
      bfLoop dm (fun _ => false) perms k' best = .ok (.done out) := by
  intro perms
  induction perms with
  | nil =>
    intro k k' best out h
    simpa [bfLoop] using h
  | cons perm rest ih =>
    intro k k' best out h
    simp only [bfLoop] at h ⊢
    by_cases ht : t k
    · simp [ht] at h
    · rw [if_neg ht] at h
      rw [if_neg (by simp)]
      cases hc : permCost dm perm with
      | error e => rw [hc] at h; cases h
      | ok c =>
        rw [hc] at h
        exact ih (k + 1) (k' + 1) _ out h

/-- Characterization of the loop run with the never-firing oracle from an
already-recorded best `(r₀, c₀)`: it completes with a recorded best whose
distance is a lower bound on `c₀` and on every candidate's cost, and the
recorded route either is still `r₀` or comes from a candidate that strictly
improves on `c₀` and on every candidate enumerated before it. -/
theorem bfLoop_min {dm : List (List ℚ)} :
    ∀ (perms : List (List ℕ)) (k : ℕ) (r₀ : List ℕ) (c₀ : ℚ),
      (∀ p ∈ perms, ∃ c, permCost dm p = .ok c) →
      ∃ r c, bfLoop dm (fun _ => false) perms k (some (r₀, c₀)) = .ok (.done (some (r, c))) ∧
        c ≤ c₀ ∧
        (∀ p ∈ perms, ∀ cp, permCost dm p = .ok cp → c ≤ cp) ∧
        ((r = r₀ ∧ c = c₀) ∨
          ∃ pre p post, perms = pre ++ p :: post ∧ r = 0 :: p ∧ permCost dm p = .ok c ∧
            c < c₀ ∧ ∀ q ∈ pre, ∀ cq, permCost dm q = .ok cq → c < cq) := by
  intro perms
  induction perms with
  | nil =>
    intro k r₀ c₀ _
    exact ⟨r₀, c₀, by simp [bfLoop], le_refl _, by simp, Or.inl ⟨rfl, rfl⟩⟩
  | cons p rest ih =>
    intro k r₀ c₀ hcosts
    obtain ⟨cp, hcp⟩ := hcosts p (List.mem_cons_self p rest)
    have hcosts' : ∀ q ∈ rest, ∃ c, permCost dm q = .ok c :=
      fun q hq => hcosts q (List.mem_cons_of_mem p hq)
    by_cases hlt : cp < c₀
    · obtain ⟨r, c, hrun, hle, hmin, hbr⟩ := ih (k + 1) (0 :: p) cp hcosts'
      refine ⟨r, c, ?_, ?_, ?_, ?_⟩
      · simp only [bfLoop, Bool.false_eq_true, if_false, hcp, hlt, if_pos hlt]
        exact hrun
      · exact le_of_lt (lt_of_le_of_lt hle hlt)
      · intro q hq cq hcq
        rcases List.mem_cons.mp hq with rfl | hq'
        · have : cq = cp := by rw [hcp] at hcq; exact (Except.ok.inj hcq).symm
          rw [this]; exact hle
        · exact hmin q hq' cq hcq
      · rcases hbr with ⟨hr, hc⟩ | ⟨pre', p', post', hsplit, hr, hcost, hclt, hstrict⟩
        · exact Or.inr ⟨[], p, rest, rfl, hr, by rw [hc]; exact hcp,
            by rw [hc]; exact hlt, by simp⟩
        · refine Or.inr ⟨p :: pre', p', post', by rw [hsplit, List.cons_append], hr, hcost,
            lt_trans hclt hlt, ?_⟩
          intro q hq cq hcq
          rcases List.mem_cons.mp hq with rfl | hq'
          · have : cq = cp := by rw [hcp] at hcq; exact (Except.ok.inj hcq).symm
            rw [this]; exact hclt
          · exact hstrict q hq' cq hcq
    · obtain ⟨r, c, hrun, hle, hmin, hbr⟩ := ih (k + 1) r₀ c₀ hcosts'
      have hge : c₀ ≤ cp := le_of_not_lt hlt
      refine ⟨r, c, ?_, hle, ?_, ?_⟩
      · simp only [bfLoop, Bool.false_eq_true, if_false, hcp, if_neg hlt]
        exact hrun
      · intro q hq cq hcq
        rcases List.mem_cons.mp hq with rfl | hq'
        · have : cq = cp := by rw [hcp] at hcq; exact (Except.ok.inj hcq).symm
          rw [this]; exact le_trans hle hge
        · exact hmin q hq' cq hcq
      · rcases hbr with ⟨hr, hc⟩ | ⟨pre', p', post', hsplit, hr, hcost, hclt, hstrict⟩
        · exact Or.inl ⟨hr, hc⟩
        · refine Or.inr ⟨p :: pre', p', post', by rw [hsplit, List.cons_append], hr, hcost,
            hclt, ?_⟩
          intro q hq cq hcq
          rcases List.mem_cons.mp hq with rfl | hq'
          · have : cq = cp := by rw [hcp] at hcq; exact (Except.ok.inj hcq).symm
            rw [this]; exact lt_of_lt_of_le hclt hge
          · exact hstrict q hq' cq hcq

/-- Every non-start location index is in range. -/
theorem other_lt {dm : List (List ℚ)} {n : ℕ} (hlen : dm.length = n) :
    ∀ x ∈ otherLocations dm, x < n := by
  intro x hx
  simp only [otherLocations, List.mem_filter, List.mem_range, hlen] at hx
  exact hx.1

/-- Prepending the start to the non-start locations is a permutation of all
location indices. -/
theorem other_perm_range {dm : List (List ℚ)} {n : ℕ} (hlen : dm.length = n) (hn : 1 ≤ n) :
    List.Perm (0 :: otherLocations dm) (List.range n) := by
  have h0 : 0 ∈ List.range n := List.mem_range.mpr (by omega)
  have hfe : (List.range n).erase 0 = otherLocations dm := by
    rw [List.Nodup.erase_eq_filter (List.nodup_range n) 0]
    simp only [otherLocations, hlen]
    apply List.filter_congr
    intro x _
    by_cases h : x = 0 <;> simp [h]
  rw [← hfe]
  exact (List.perm_cons_erase h0).symm

/-- Every permutation of the non-start locations has a computable tour cost
over a square matrix. -/
theorem permCost_ok {dm : List (List ℚ)} {n : ℕ} (hsq : Square dm n) (hn : 1 ≤ n)
    {p : List ℕ} (hp : List.Perm p (otherLocations dm)) :
    ∃ c, permCost dm p = .ok c := by
  apply routeCost_ok hsq
  intro x hx
  rcases List.mem_cons.mp hx with rfl | hx'
  · omega
  · rcases List.mem_append.mp hx' with hxp | hx0
    · exact other_lt hsq.1 x (hp.subset hxp)
    · simp at hx0; omega

/-- Top-level run of the brute-force search with the never-firing oracle over
a square `n × n` matrix, `n ≥ 1`: the search completes and returns the route
of the first enumerated permutation achieving the minimum tour cost. -/
theorem bf_run_spec {dm : List (List ℚ)} {n : ℕ} (hsq : Square dm n) (hn : 1 ≤ n) :
    ∃ r c pre p post,
      tsp_brute_force dm (fun _ => false) = .ok (.done (some (r, c))) ∧
      permsLex (otherLocations dm) = pre ++ p :: post ∧
      r = 0 :: p ∧ permCost dm p = .ok c ∧
      (∀ q, List.Perm q (otherLocations dm) → ∀ cq, permCost dm q = .ok cq → c ≤ cq) ∧
      (∀ q ∈ pre, ∀ cq, permCost dm q = .ok cq → c < cq) := by
  have hcostall : ∀ q ∈ permsLex (otherLocations dm), ∃ c, permCost dm q = .ok c :=
    fun q hq => permCost_ok hsq hn (permsLex_iff.mp hq)
  cases hperm : permsLex (otherLocations dm) with
  | nil =>
    exfalso
    have : otherLocations dm ∈ permsLex (otherLocations dm) :=
      permsLex_iff.mpr (List.Perm.refl _)
    rw [hperm] at this
    simp at this
  | cons p₀ rest =>
    obtain ⟨c₀, hc₀⟩ := hcostall p₀ (by rw [hperm]; exact List.mem_cons_self _ _)
    have hcosts' : ∀ q ∈ rest, ∃ c, permCost dm q = .ok c :=
      fun q hq => hcostall q (by rw [hperm]; exact List.mem_cons_of_mem _ hq)
    obtain ⟨r, c, hrun, hle, hmin, hbr⟩ := bfLoop_min rest 1 (0 :: p₀) c₀ hcosts'
    have hmain : tsp_brute_force dm (fun _ => false) = .ok (.done (some (r, c))) := by
      unfold tsp_brute_force
      rw [hperm]
      simp only [bfLoop, Bool.false_eq_true, if_false, hc₀]
      exact hrun
    have hminall : ∀ q, List.Perm q (otherLocations dm) →
        ∀ cq, permCost dm q = .ok cq → c ≤ cq := by
      intro q hq cq hcq
      have hqmem : q ∈ permsLex (otherLocations dm) := permsLex_iff.mpr hq
      rw [hperm] at hqmem
      rcases List.mem_cons.mp hqmem with rfl | hq'
      · have : cq = c₀ := by rw [hc₀] at hcq; exact (Except.ok.inj hcq).symm
        rw [this]; exact hle
      · exact hmin q hq' cq hcq
    rcases hbr with ⟨hr, hc⟩ | ⟨pre', p', post', hsplit, hr, hcost, hclt, hstrict⟩
    · refine ⟨r, c, [], p₀, rest, hmain, ?_, hr, ?_, hminall, by simp⟩
      · rfl
      · rw [hc]; exact hc₀
    · refine ⟨r, c, p₀ :: pre', p', post', hmain, ?_, hr, hcost, hminall, ?_⟩
      · rw [hsplit]; rw [List.cons_append]
      intro q hq cq hcq
      rcases List.mem_cons.mp hq with rfl | hq'
      · have : cq = c₀ := by rw [hc₀] at hcq; exact (Except.ok.inj hcq).symm
        rw [this]; exact hclt
      · exact hstrict q hq' cq hcq

/-! ### The nearest-neighbor loop -/

@[simp] theorem ok_bind {α β : Type} (a : α) (f : α → Except PyErr β) :
    (do
      let x ← (Except.ok a : Except PyErr α)
      f x) = f a := rfl

@[simp] theorem pure_eq_ok {α : Type} (a : α) : (pure a : Except PyErr α) = .ok a := rfl

theorem routeCost_cons (dm : List (List ℚ)) (a b : ℕ) (rest : List ℕ) :
    routeCost dm (a :: b :: rest) = (do
      let x ← d2 dm a b
      let s ← routeCost dm (b :: rest)
      pure (x + s)) := rfl

theorem minByKeyAux_ok_mem (key : ℕ → Except PyErr ℚ) :
    ∀ (l : List ℕ) (b : ℕ) (kb : ℚ), (∀ x ∈ l, ∃ v, key x = .ok v) →
      ∃ m, minByKeyAux key b kb l = .ok m ∧ (m = b ∨ m ∈ l) := by
  intro l
  induction l with
  | nil => intro b kb _; exact ⟨b, rfl, Or.inl rfl⟩
  | cons x rest ih =>
    intro b kb hkeys
    obtain ⟨v, hv⟩ := hkeys x (List.mem_cons_self x rest)
    have hkeys' : ∀ y ∈ rest, ∃ v, key y = .ok v :=
      fun y hy => hkeys y (List.mem_cons_of_mem x hy)
    by_cases hlt : v < kb
    · obtain ⟨m, hm, hmem⟩ := ih x v hkeys'
      refine ⟨m, ?_, ?_⟩
      · simp only [minByKeyAux, hv, ok_bind]
        rw [if_pos hlt]
        exact hm
      · rcases hmem with rfl | h
        · exact Or.inr (List.mem_cons_self m rest)
        · exact Or.inr (List.mem_cons_of_mem x h)
    · obtain ⟨m, hm, hmem⟩ := ih b kb hkeys'
      refine ⟨m, ?_, ?_⟩
      · simp only [minByKeyAux, hv, ok_bind]
        rw [if_neg hlt]
        exact hm
      · rcases hmem with rfl | h
        · exact Or.inl rfl
        · exact Or.inr (List.mem_cons_of_mem x h)

theorem minByKey_ok_mem (key : ℕ → Except PyErr ℚ) (l : List ℕ) (hne : l ≠ [])
    (hkeys : ∀ x ∈ l, ∃ v, key x = .ok v) :
    ∃ m, minByKey key l = .ok m ∧ m ∈ l := by
  cases l with
  | nil => exact absurd rfl hne
  | cons x rest =>
    obtain ⟨v, hv⟩ := hkeys x (List.mem_cons_self x rest)
    obtain ⟨m, hm, hmem⟩ := minByKeyAux_ok_mem key rest x v
      (fun y hy => hkeys y (List.mem_cons_of_mem x hy))
    refine ⟨m, ?_, ?_⟩
    · simp only [minByKey, hv, ok_bind]
      exact hm
    · rcases hmem with rfl | h
      · exact List.mem_cons_self m rest
      · exact List.mem_cons_of_mem x h

theorem nnLoop_nil {dm : List (List ℚ)} {n : ℕ} (hsq : Square dm n) {start : ℕ}
    (hstart : start < n) (fuel current : ℕ) (route : List ℕ) (total : ℚ)
    (hcur : current < n) :
    ∃ ext c, nnLoop dm start fuel current [] route total = .ok (route ++ ext, total + c) ∧
      List.Perm ext ([] : List ℕ) ∧ routeCost dm (current :: (ext ++ [start])) = .ok c := by
  obtain ⟨x, hx⟩ := d2_ok hsq hcur hstart
  refine ⟨[], x + 0, ?_, List.Perm.refl _, ?_⟩
  · cases fuel <;> simp [nnLoop, hx]
  · simp [routeCost_cons, hx, routeCost]

/-- Invariant induction for the greedy loop: over a square matrix, with all
unvisited indices in range and enough fuel, the loop extends the accumulated
route by exactly the unvisited locations (in some order), never fails, and
adds exactly the recomputed cost of the walk it takes (closing edge to
`start` included). -/
theorem nnLoop_spec {dm : List (List ℚ)} {n : ℕ} (hsq : Square dm n) {start : ℕ}
    (hstart : start < n) :
    ∀ (fuel : ℕ) (u : List ℕ) (current : ℕ) (route : List ℕ) (total : ℚ),
      u.length ≤ fuel → (∀ x ∈ u, x < n) → current < n →
      ∃ ext c, nnLoop dm start fuel current u route total = .ok (route ++ ext, total + c) ∧
        List.Perm ext u ∧ routeCost dm (current :: (ext ++ [start])) = .ok c := by
  intro fuel
  induction fuel with
  | zero =>
    intro u current route total hfuel hu hcur
    have hu0 : u = [] := List.eq_nil_of_length_eq_zero (by omega)
    subst hu0
    exact nnLoop_nil hsq hstart 0 current route total hcur
  | succ fuel ih =>
    intro u current route total hfuel hu hcur
    cases u with
    | nil => exact nnLoop_nil hsq hstart (fuel + 1) current route total hcur
    | cons y rest =>
      have hkeys : ∀ x ∈ y :: rest, ∃ v, d2 dm current x = .ok v :=
        fun x hx => d2_ok hsq hcur (hu x hx)
      obtain ⟨m, hm, hmem⟩ := minByKey_ok_mem _ _ (by simp) hkeys
      have hm_lt : m < n := hu m hmem
      obtain ⟨cm, hcm⟩ := d2_ok hsq hcur hm_lt
      have hulen : ((y :: rest).erase m).length ≤ fuel := by
        rw [List.length_erase_of_mem hmem]
        simp only [List.length_cons] at hfuel ⊢
        omega
      have hu' : ∀ x ∈ (y :: rest).erase m, x < n :=
        fun x hx => hu x (List.mem_of_mem_erase hx)
      obtain ⟨ext', c', hrun', hperm', hcost'⟩ :=
        ih ((y :: rest).erase m) m (route ++ [m]) (total + cm) hulen hu' hm_lt
      refine ⟨m :: ext', cm + c', ?_, ?_, ?_⟩
      · simp only [nnLoop, hm, ok_bind]
        rw [if_pos hmem]
        simp only [hcm, ok_bind]
        rw [hrun']
        have h1 : (route ++ [m]) ++ ext' = route ++ m :: ext' := by simp
        have h2 : total + cm + c' = total + (cm + c') := by ring
        rw [h1, h2]
      · exact (hperm'.cons m).trans (List.perm_cons_erase hmem).symm
      · have h3 : (m :: ext') ++ [start] = m :: (ext' ++ [start]) := rfl
        rw [h3, routeCost_cons, hcm, ok_bind, hcost', ok_bind, pure_eq_ok]

/-- Top-level run of the nearest-neighbor solver over a square `n × n` matrix
with an in-range start: it completes with a route that starts at `start`, is
a permutation of all location indices, and whose reported distance is the
recomputed cost of the closed route. -/
theorem nn_run_spec {dm : List (List ℚ)} {n : ℕ} (hsq : Square dm n) {start : ℕ}
    (hstart : start < n) :
    ∃ ext c, tsp_nearest_neighbor dm start = .ok (start :: ext, c) ∧
      List.Perm (start :: ext) (List.range n) ∧
      routeCost dm ((start :: ext) ++ [start]) = .ok c := by
  have hmem : start ∈ List.range dm.length := by
    rw [hsq.1]; exact List.mem_range.mpr hstart
  have hu : ∀ x ∈ (List.range dm.length).erase start, x < n := by
    intro x hx
    have := List.mem_of_mem_erase hx
    rw [hsq.1] at this
    exact List.mem_range.mp this
  obtain ⟨ext, c, hrun, hperm, hcost⟩ :=
    nnLoop_spec hsq hstart ((List.range dm.length).erase start).length
      ((List.range dm.length).erase start) start [start] 0 (le_refl _) hu hstart
  refine ⟨ext, c, ?_, ?_, ?_⟩
  · simp only [tsp_nearest_neighbor]
    rw [if_pos hmem, hrun]
    simp
  · have : List.Perm (start :: ext) (List.range dm.length) :=
      (hperm.cons start).trans (List.perm_cons_erase hmem).symm
    rwa [hsq.1] at this
  · exact hcost

/-- A run of `tsp_brute_force` under any timeout oracle that completes with a
recorded best `(r, c)` agrees with the never-firing-oracle run, hence `(r, c)`
comes from the first enumerated permutation achieving the minimum cost. -/
theorem bf_done_spec {dm : List (List ℚ)} {n : ℕ} {t : ℕ → Bool} {r : List ℕ} {c : ℚ}
    (hsq : Square dm n) (hn : 1 ≤ n)
    (hrun : tsp_brute_force dm t = .ok (.done (some (r, c)))) :
    ∃ pre p post, permsLex (otherLocations dm) = pre ++ p :: post ∧
      r = 0 :: p ∧ permCost dm p = .ok c ∧
      (∀ q, List.Perm q (otherLocations dm) → ∀ cq, permCost dm q = .ok cq → c ≤ cq) ∧
      (∀ q ∈ pre, ∀ cq, permCost dm q = .ok cq → c < cq) := by
  have hrun' : bfLoop dm t (permsLex (otherLocations dm)) 0 none =
      .ok (.done (some (r, c))) := hrun
  have hff : tsp_brute_force dm (fun _ => false) = .ok (.done (some (r, c))) :=
    bfLoop_done_eq _ 0 0 none _ hrun'
  obtain ⟨r', c', pre, p, post, hmain, hsplit, hr', hcostp, hmin, hstrict⟩ :=
    bf_run_spec hsq hn
  have heq := hmain.symm.trans hff
  simp only [Except.ok.injEq, BFOut.done.injEq, Option.some.injEq, Prod.mk.injEq] at heq
  obtain ⟨hre, hce⟩ := heq
  subst hre
  subst hce
  exact ⟨pre, p, post, hsplit, hr', hcostp, hmin, hstrict⟩

/-- C1: for every square `N×N` matrix with `N ≥ 1`, if `tsp_brute_force`
returns a result (the timeout branch is never taken), the returned total
distance is the minimum, over all permutations of the non-start locations
`1..N-1`, of the cost of the closed tour `0 → perm[0] → … → perm[N-2] → 0`:
it is a lower bound on every such tour's cost, and is attained by one. -/
theorem claim_C1_bf_optimal {dm : List (List ℚ)} {n : ℕ} {t : ℕ → Bool}
    {r : List ℕ} {c : ℚ} (hsq : Square dm n) (hn : 1 ≤ n)
    (hrun : tsp_brute_force dm t = .ok (.done (some (r, c)))) :
    (∀ p, List.Perm p (otherLocations dm) → ∀ cp, permCost dm p = .ok cp → c ≤ cp) ∧
    (∃ p, List.Perm p (otherLocations dm) ∧ permCost dm p = .ok c) := by
  obtain ⟨pre, p, post, hsplit, hr, hcostp, hmin, _⟩ := bf_done_spec hsq hn hrun
  refine ⟨hmin, p, ?_, hcostp⟩
  apply permsLex_iff.mp
  rw [hsplit]
  exact List.mem_append.mpr (Or.inr (List.mem_cons_self p post))

theorem claim_C1_bf_optimal_witness :
    Square [[0, 1], [1, 0]] 2 ∧ 1 ≤ 2 ∧
    tsp_brute_force [[0, 1], [1, 0]] (fun _ => false) =
      .ok (.done (some ([0, 1], 1 + (1 + 0)))) ∧
    ((∀ p, List.Perm p (otherLocations [[0, 1], [1, 0]]) →
        ∀ cp, permCost [[0, 1], [1, 0]] p = .ok cp → (1 + (1 + 0) : ℚ) ≤ cp) ∧
     (∃ p, List.Perm p (otherLocations [[0, 1], [1, 0]]) ∧
        permCost [[0, 1], [1, 0]] p = .ok (1 + (1 + 0) : ℚ))) :=
  ⟨by decide, by decide, rfl,
    @claim_C1_bf_optimal [[0, 1], [1, 0]] 2 (fun _ => false) [0, 1] (1 + (1 + 0))
      (by decide) (by decide) rfl⟩

/-- C2: for every square `N×N` matrix with `N ≥ 1`, whenever `tsp_brute_force`
(under any oracle, absent timeout) or `tsp_nearest_neighbor` (with start in
`0..N-1`) returns a pair `(route, distance)`, the route is a permutation of
`0..N-1` of length exactly `N` whose first element is the start index, and the
reported distance equals the independently recomputed sum of consecutive edge
weights along the route plus the closing edge back to the start. -/
theorem claim_C2_route_validity {dm : List (List ℚ)} {n : ℕ}
    (hsq : Square dm n) (hn : 1 ≤ n) :
    (∀ (t : ℕ → Bool) (r : List ℕ) (c : ℚ),
        tsp_brute_force dm t = .ok (.done (some (r, c))) →
        List.Perm r (List.range n) ∧ r.length = n ∧ r.head? = some 0 ∧
          routeCost dm (r ++ [0]) = .ok c) ∧
    (∀ (s : ℕ) (r : List ℕ) (c : ℚ), s < n →
        tsp_nearest_neighbor dm s = .ok (r, c) →
        List.Perm r (List.range n) ∧ r.length = n ∧ r.head? = some s ∧
          routeCost dm (r ++ [s]) = .ok c) := by
  constructor
  · intro t r c hrun
    obtain ⟨pre, p, post, _, hr, hcostp, _, _⟩ := bf_done_spec hsq hn hrun
    subst hr
    have hperm : List.Perm p (otherLocations dm) := by
      apply permsLex_iff.mp
      rw [‹permsLex (otherLocations dm) = pre ++ p :: post›]
      exact List.mem_append.mpr (Or.inr (List.mem_cons_self p post))
    have hrange : List.Perm (0 :: p) (List.range n) :=
      (hperm.cons 0).trans (other_perm_range hsq.1 hn)
    exact ⟨hrange, by rw [hrange.length_eq, List.length_range], rfl, hcostp⟩
  · intro s r c hs hrun
    obtain ⟨ext, c', hrun', hperm, hcost⟩ := nn_run_spec hsq hs
    have heq := hrun'.symm.trans hrun
    simp only [Except.ok.injEq, Prod.mk.injEq] at heq
    obtain ⟨hre, hce⟩ := heq
    subst hce
    subst hre
    exact ⟨hperm, by rw [hperm.length_eq, List.length_range], rfl, hcost⟩

theorem claim_C2_route_validity_witness :
    Square [[0, 1], [1, 0]] 2 ∧ 1 ≤ 2 ∧
    ((∀ (t : ℕ → Bool) (r : List ℕ) (c : ℚ),
        tsp_brute_force [[0, 1], [1, 0]] t = .ok (.done (some (r, c))) →
        List.Perm r (List.range 2) ∧ r.length = 2 ∧ r.head? = some 0 ∧
          routeCost [[0, 1], [1, 0]] (r ++ [0]) = .ok c) ∧
     (∀ (s : ℕ) (r : List ℕ) (c : ℚ), s < 2 →
        tsp_nearest_neighbor [[0, 1], [1, 0]] s = .ok (r, c) →
        List.Perm r (List.range 2) ∧ r.length = 2 ∧ r.head? = some s ∧
          routeCost [[0, 1], [1, 0]] (r ++ [s]) = .ok c)) :=
  ⟨by decide, by decide,
    @claim_C2_route_validity [[0, 1], [1, 0]] 2 (by decide) (by decide)⟩

/-- C3: for every square `N×N` matrix with `N ≥ 1`, if the brute-force solver
completes with distance `c` and the nearest-neighbor solver started at `0`
returns distance `c'`, then `c' ≥ c`, i.e. the quality ratio `c' / c`
expressed as a percentage is at least `100`. -/
theorem claim_C3_nn_ge_bf {dm : List (List ℚ)} {n : ℕ} {t : ℕ → Bool}
    {r : List ℕ} {c : ℚ} {r' : List ℕ} {c' : ℚ}
    (hsq : Square dm n) (hn : 1 ≤ n)
    (hbf : tsp_brute_force dm t = .ok (.done (some (r, c))))
    (hnn : tsp_nearest_neighbor dm 0 = .ok (r', c')) :
    c ≤ c' ∧ (0 < c → (100 : ℚ) ≤ c' / c * 100) := by
  obtain ⟨_, _, _, _, _, _, hmin, _⟩ := bf_done_spec hsq hn hbf
  obtain ⟨ext, c'', hrun', hperm, hcost⟩ := nn_run_spec hsq (show 0 < n by omega)
  have heq := hrun'.symm.trans hnn
  simp only [Except.ok.injEq, Prod.mk.injEq] at heq
  obtain ⟨hre, hce⟩ := heq
  have hext : List.Perm ext (otherLocations dm) := by
    have h1 : List.Perm (0 :: ext) (0 :: otherLocations dm) :=
      hperm.trans (other_perm_range hsq.1 hn).symm
    exact h1.cons_inv
  have hcost' : permCost dm ext = .ok c' := by rw [← hce]; exact hcost
  have hle : c ≤ c' := hmin ext hext c' hcost'
  refine ⟨hle, fun hc => ?_⟩
  have h1 : (1 : ℚ) ≤ c' / c := (one_le_div hc).mpr hle
  linarith

theorem claim_C3_nn_ge_bf_witness :
    Square [[0, 1], [1, 0]] 2 ∧ 1 ≤ 2 ∧
    tsp_brute_force [[0, 1], [1, 0]] (fun _ => false) =
      .ok (.done (some ([0, 1], 1 + (1 + 0)))) ∧
    tsp_nearest_neighbor [[0, 1], [1, 0]] 0 = .ok ([0, 1], 0 + 1 + 1) ∧
    ((1 + (1 + 0) : ℚ) ≤ 0 + 1 + 1 ∧
      (0 < (1 + (1 + 0) : ℚ) → (100 : ℚ) ≤ (0 + 1 + 1) / (1 + (1 + 0)) * 100)) :=
  ⟨by decide, by decide, rfl, rfl,
    @claim_C3_nn_ge_bf [[0, 1], [1, 0]] 2 (fun _ => false) [0, 1] (1 + (1 + 0))
      [0, 1] (0 + 1 + 1) (by decide) (by decide) rfl rfl⟩

/-- C4: whenever the timeout check fires, `tsp_brute_force` returns exactly
the bare timeout signal (Python's `return None, None`), never a partial or
best-so-far route: the loop's result is `timeout` for an arbitrary recorded
best `best` and an arbitrary number `k` of candidates already examined; in
particular an oracle firing at the first check times the whole call out. -/
theorem claim_C4_timeout_bare (dm : List (List ℚ)) (t : ℕ → Bool) (k : ℕ)
    (best : Option (List ℕ × ℚ)) (perm : List ℕ) (rest : List (List ℕ))
    (h : t k = true) (h0 : t 0 = true) :
    bfLoop dm t (perm :: rest) k best = .ok .timeout ∧
    tsp_brute_force dm t = .ok .timeout := by
  constructor
  · simp [bfLoop, h]
  · unfold tsp_brute_force
    cases hp : permsLex (otherLocations dm) with
    | nil =>
      exfalso
      have hmem : otherLocations dm ∈ permsLex (otherLocations dm) :=
        permsLex_iff.mpr (List.Perm.refl _)
      rw [hp] at hmem
      simp at hmem
    | cons q qs => simp [bfLoop, h0]

theorem claim_C4_timeout_bare_witness :
    (fun _ : ℕ => true) 3 = true ∧ (fun _ : ℕ => true) 0 = true ∧
    (bfLoop [[0, 1], [1, 0]] (fun _ => true) [[1]] 3 (some ([0, 1], 5)) = .ok .timeout ∧
     tsp_brute_force [[0, 1], [1, 0]] (fun _ => true) = .ok .timeout) :=
  ⟨rfl, rfl,
    claim_C4_timeout_bare [[0, 1], [1, 0]] (fun _ => true) 3 (some ([0, 1], 5)) [1] []
      rfl rfl⟩

/-- C5 (evaluation at the failing input): on the timed-out result
`(None, None)`, `time_brute_force` and `compare_all_approaches` print a
distinct TIMEOUT row, but `test_small_cases` feeds `dist_bf = None` straight
into `:.2f` formatting and the quality division, raising `TypeError` instead
of displaying the timeout distinctly — contradicting the requirement that
every reporting mode handle the timeout signal distinctly. -/
theorem claim_C5_test_small_cases_raises :
    test_small_cases_step none 5 = .error () ∧
    time_brute_force_row none = .timeoutMark ∧
    compare_row none 5 = [.timeoutMark, .distVal 5] :=
  ⟨rfl, rfl, rfl⟩

/-- C6: for every square matrix, the brute-force solver returns the route
built from the first minimum-cost permutation in the enumeration order of
`itertools.permutations` over locations `1..N-1`: the returned distance is a
lower bound on every enumerated candidate's cost, and the returned route comes
from an enumerated permutation of that cost which every strictly earlier
candidate strictly exceeds — because the improvement test uses strict `<`, a
later permutation with equal cost never replaces the recorded best. -/
theorem claim_C6_first_min_wins {dm : List (List ℚ)} {n : ℕ} {t : ℕ → Bool}
    {r : List ℕ} {c : ℚ} (hsq : Square dm n) (hn : 1 ≤ n)
    (hrun : tsp_brute_force dm t = .ok (.done (some (r, c)))) :
    ∃ pre p post, permsLex (otherLocations dm) = pre ++ p :: post ∧
      r = 0 :: p ∧ permCost dm p = .ok c ∧
      (∀ q ∈ pre, ∀ cq, permCost dm q = .ok cq → c < cq) ∧
      (∀ q ∈ permsLex (otherLocations dm), ∀ cq, permCost dm q = .ok cq → c ≤ cq) := by
  obtain ⟨pre, p, post, hsplit, hr, hcostp, hmin, hstrict⟩ := bf_done_spec hsq hn hrun
  exact ⟨pre, p, post, hsplit, hr, hcostp, hstrict,
    fun q hq cq hcq => hmin q (permsLex_iff.mp hq) cq hcq⟩

theorem claim_C6_first_min_wins_witness :
    Square [[0, 1], [1, 0]] 2 ∧ 1 ≤ 2 ∧
    tsp_brute_force [[0, 1], [1, 0]] (fun _ => false) =
      .ok (.done (some ([0, 1], 1 + (1 + 0)))) ∧
    (∃ pre p post, permsLex (otherLocations [[0, 1], [1, 0]]) = pre ++ p :: post ∧
      [0, 1] = 0 :: p ∧ permCost [[0, 1], [1, 0]] p = .ok (1 + (1 + 0)) ∧
      (∀ q ∈ pre, ∀ cq, permCost [[0, 1], [1, 0]] q = .ok cq → (1 + (1 + 0) : ℚ) < cq) ∧
      (∀ q ∈ permsLex (otherLocations [[0, 1], [1, 0]]),
        ∀ cq, permCost [[0, 1], [1, 0]] q = .ok cq → (1 + (1 + 0) : ℚ) ≤ cq)) :=
  ⟨by decide, by decide, rfl,
    @claim_C6_first_min_wins [[0, 1], [1, 0]] 2 (fun _ => false) [0, 1] (1 + (1 + 0))
      (by decide) (by decide) rfl⟩

/-- C7: for every 2×2 distance matrix (symmetric, per the data model), both
solvers return the unique non-trivial route `[0, 1]` with total distance
`2 * distances[0][1]`. -/
theorem claim_C7_two_by_two (a b c e : ℚ) (hsym : c = b) :
    tsp_brute_force [[a, b], [c, e]] (fun _ => false) =
      .ok (.done (some ([0, 1], 2 * b))) ∧
    tsp_nearest_neighbor [[a, b], [c, e]] 0 = .ok ([0, 1], 2 * b) := by
  rw [hsym]
  constructor
  · rw [show (2 : ℚ) * b = b + (b + 0) from by ring]
    rfl
  · rw [show (2 : ℚ) * b = 0 + b + b from by ring]
    rfl

theorem claim_C7_two_by_two_witness :
    (1 : ℚ) = 1 ∧
    (tsp_brute_force [[0, 1], [1, 0]] (fun _ => false) =
        .ok (.done (some ([0, 1], 2 * 1))) ∧
      tsp_nearest_neighbor [[0, 1], [1, 0]] 0 = .ok ([0, 1], 2 * 1)) :=
  ⟨rfl, claim_C7_two_by_two 0 1 1 0 rfl⟩

/-- C8: for every square `N×N` matrix with `N ≥ 1` and every start index in
`0..N-1`, `tsp_nearest_neighbor` terminates with a complete `(route, distance)`
result covering all `N` locations; it never fails on well-formed input. -/
theorem claim_C8_nn_total {dm : List (List ℚ)} {n : ℕ} (s : ℕ)
    (hsq : Square dm n) (hs : s < n) :
    ∃ r c, tsp_nearest_neighbor dm s = .ok (r, c) ∧ r.length = n := by
  obtain ⟨ext, c, hrun, hperm, _⟩ := nn_run_spec hsq hs
  exact ⟨s :: ext, c, hrun, by rw [hperm.length_eq, List.length_range]⟩

theorem claim_C8_nn_total_witness :
    Square [[0, 1], [1, 0]] 2 ∧ 1 < 2 ∧
    (∃ r c, tsp_nearest_neighbor [[0, 1], [1, 0]] 1 = .ok (r, c) ∧ r.length = 2) :=
  ⟨by decide, by decide,
    @claim_C8_nn_total [[0, 1], [1, 0]] 2 1 (by decide) (by decide)⟩

/-- C9: both embedded solvers are deterministic: two brute-force invocations
under possibly different timeout oracles that both complete return identical
recorded results, and two nearest-neighbor invocations on the same matrix and
start trivially coincide (the embedded function is pure). -/
theorem claim_C9_deterministic {dm : List (List ℚ)} {t₁ t₂ : ℕ → Bool}
    {b₁ b₂ : Option (List ℕ × ℚ)} (s : ℕ)
    (h₁ : tsp_brute_force dm t₁ = .ok (.done b₁))
    (h₂ : tsp_brute_force dm t₂ = .ok (.done b₂)) :
    b₁ = b₂ ∧ tsp_nearest_neighbor dm s = tsp_nearest_neighbor dm s := by
  have hrun₁ : bfLoop dm t₁ (permsLex (otherLocations dm)) 0 none =
      .ok (.done b₁) := h₁
  have hrun₂ : bfLoop dm t₂ (permsLex (otherLocations dm)) 0 none =
      .ok (.done b₂) := h₂
  have e₁ := bfLoop_done_eq _ 0 0 none b₁ hrun₁
  have e₂ := bfLoop_done_eq _ 0 0 none b₂ hrun₂
  have heq := e₁.symm.trans e₂
  simp only [Except.ok.injEq, BFOut.done.injEq] at heq
  exact ⟨heq, rfl⟩

theorem claim_C9_deterministic_witness :
    tsp_brute_force [[0, 1], [1, 0]] (fun _ => false) =
      .ok (.done (some ([0, 1], 1 + (1 + 0)))) ∧
    tsp_brute_force [[0, 1], [1, 0]] (fun k => decide (k ≥ 5)) =
      .ok (.done (some ([0, 1], 1 + (1 + 0)))) ∧
    (some ([0, 1], (1 + (1 + 0) : ℚ)) = some ([0, 1], 1 + (1 + 0)) ∧
      tsp_nearest_neighbor [[0, 1], [1, 0]] 0 = tsp_nearest_neighbor [[0, 1], [1, 0]] 0) :=
  ⟨rfl, rfl,
    @claim_C9_deterministic [[0, 1], [1, 0]] (fun _ => false) (fun k => decide (k ≥ 5))
      (some ([0, 1], 1 + (1 + 0))) (some ([0, 1], 1 + (1 + 0))) 0 rfl rfl⟩

/-- C10: on the empty 0×0 matrix neither solver returns a result:
`tsp_nearest_neighbor` raises removing start `0` from the empty unvisited set
(`KeyError`), and `tsp_brute_force` raises indexing the empty `distances`
while costing the degenerate route `[0, 0]` built from the single empty
permutation (`IndexError`). -/
theorem claim_C10_empty_matrix :
    tsp_brute_force [] (fun _ => false) = .error () ∧
    tsp_nearest_neighbor [] 0 = .error () :=
  ⟨rfl, rfl⟩

-- sanity checks on small concrete inputs
example : permsLex [1, 2, 3] =
    [[1, 2, 3], [1, 3, 2], [2, 1, 3], [2, 3, 1], [3, 1, 2], [3, 2, 1]] := by decide
example : tsp_brute_force [] (fun _ => false) = .error () := rfl
example : tsp_nearest_neighbor [] 0 = .error () := rfl
example : tsp_brute_force [[0, 1], [1, 0]] (fun _ => false) =
    .ok (.done (some ([0, 1], 1 + (1 + 0)))) := rfl
example : tsp_nearest_neighbor [[0, 1], [1, 0]] 0 = .ok ([0, 1], 0 + 1 + 1) := rfl
